import Mathlib

/-!
# Verification of `aeneas/globalfunctions.py`

Shallow embedding of the configuration codec and time formatters of the
module `aeneas/globalfunctions.py`, together with proofs of the claimed
properties.

Python strings are modelled as lists of characters (`Str`); Python dicts
are modelled as association lists with insertion-order semantics (an
assignment to an existing key replaces the value in place, an assignment
to a fresh key appends at the end, exactly as CPython dicts behave).
The mutable `Result` sink object is modelled as an explicit record that
is threaded through the functions.  Python floats are modelled exactly as
IEEE-754 binary64 values represented by rational numbers, with explicit
round-to-nearest-even after every arithmetic operation.
-/

/-- Python strings, modelled as lists of characters. -/
abbrev Str := List Char

/-- Modelled from the spec: `gc.CONFIG_STRING_SEPARATOR_SYMBOL` lives in the
constants module `aeneas/globalconstants.py`, which is not under `src/`.
The spec fixes the config-string wire format to pipe-delimited
`key_1=value_1|key_2=value_2|...` tokens, so the pair separator is `|`. -/
def SEPARATOR : Char := '|'

/-- Modelled from the spec: `gc.CONFIG_STRING_ASSIGNMENT_SYMBOL` from the
constants module (not under `src/`); the spec's wire format assigns with
`=` inside each `key=value` token. -/
def ASSIGNMENT : Char := '='

/-- Modelled from the spec: `gc.CONFIG_XML_TASKS_TAG` from the constants
module (not under `src/`); the designated tasks-container element tag. -/
def TASKS_TAG : Str := "tasks".toList

/-- Modelled from the spec: `gc.CONFIG_XML_TASK_TAG` from the constants
module (not under `src/`); the designated task element tag. -/
def TASK_TAG : Str := "task".toList

/-- Python's single-character `s.split(sep)`: always returns a non-empty
list; `"".split(sep) == [""]`. -/
def splitChar (sep : Char) : Str → List Str
  | [] => [[]]
  | c :: cs =>
    if c == sep then [] :: splitChar sep cs
    else
      match splitChar sep cs with
      | [] => [[c]]
      | r :: rs => (c :: r) :: rs

/-- Python's `sep.join(parts)` for a single-character separator. -/
def joinChar (sep : Char) : List Str → Str
  | [] => []
  | [p] => p
  | p :: rest => p ++ sep :: joinChar sep rest

/-- Python's `str.strip()` (restricted to the ASCII whitespace characters
recognised by `Char.isWhitespace`). -/
def pyStrip (s : Str) : Str :=
  ((s.dropWhile Char.isWhitespace).reverse.dropWhile Char.isWhitespace).reverse

/-- Python's `str.splitlines()` (restricted to the `\n`, `\r`, `\r\n`
line boundaries): helper walking the string with the current line
accumulated in reverse. -/
def splitlinesGo : Str → Str → List Str
  | [], [] => []
  | [], cur => [cur.reverse]
  | '\r' :: '\n' :: rest, cur => cur.reverse :: splitlinesGo rest []
  | '\n' :: rest, cur => cur.reverse :: splitlinesGo rest []
  | '\r' :: rest, cur => cur.reverse :: splitlinesGo rest []
  | c :: rest, cur => splitlinesGo rest (c :: cur)

/-- Python's `str.splitlines()`. -/
def pySplitlines (s : Str) : List Str := splitlinesGo s []

/-- The `Result` sink object consumed by the codec: a pass/fail flag plus
accumulated error and warning messages. -/
structure Sink where
  passed : Bool
  errors : List Str
  warnings : List Str
deriving Repr, DecidableEq

/-- `result.add_warning(message)`. -/
def Sink.add_warning (s : Sink) (m : Str) : Sink :=
  { s with warnings := s.warnings ++ [m] }

/-- `result.add_error(message)`. -/
def Sink.add_error (s : Sink) (m : Str) : Sink :=
  { s with errors := s.errors ++ [m] }

/-- A fresh sink: passed, no messages. -/
def initSink : Sink := ⟨true, [], []⟩

/-- A Python dict from `Str` to `Str`, as an insertion-ordered
association list. -/
abbrev Dict := List (Str × Str)

/-- CPython dict assignment `d[k] = v`: replace in place if the key is
present, append otherwise. -/
def dictInsert (d : Dict) (k v : Str) : Dict :=
  if d.any (fun p => p.1 == k) then
    d.map (fun p => if p.1 == k then (k, v) else p)
  else
    d ++ [(k, v)]

/-- `d[k]` as a lookup returning `none` when the key is absent. -/
def dictFind (d : Dict) (k : Str) : Option Str :=
  (d.find? (fun p => p.1 == k)).map (fun p => p.2)

/-- The warning text `"Invalid key=value string: '%s'" % pair` produced by
`pairs_to_dict` for an invalid token. -/
def invalidWarning (pair : Str) : Str :=
  "Invalid key=value string: '".toList ++ pair ++ "'".toList

/-- The test of `pairs_to_dict`: split the token on the assignment symbol;
the token is a valid pair exactly when this yields two non-empty parts
(`len(tokens) == 2 and len(tokens[0]) > 0 and len(tokens[1]) > 0`). -/
def validPair (pair : Str) : Option (Str × Str) :=
  match splitChar ASSIGNMENT pair with
  | [k, v] => if 0 < k.length ∧ 0 < v.length then some (k, v) else none
  | _ => none

/-- The loop of `pairs_to_dict`: fold over the tokens, inserting valid
pairs and recording a warning for each invalid non-empty token when a
sink was supplied. -/
def pairsLoop : List Str → Dict → Option Sink → Dict × Option Sink
  | [], d, r => (d, r)
  | pair :: rest, d, r =>
    if 0 < pair.length then
      match validPair pair with
      | some (k, v) => pairsLoop rest (dictInsert d k v) r
      | none =>
        match r with
        | some sink => pairsLoop rest d (some (sink.add_warning (invalidWarning pair)))
        | none => pairsLoop rest d none
    else
      pairsLoop rest d r

/-- `pairs_to_dict(pairs, result)` of the source, with the mutated sink
returned alongside the dictionary. -/
def pairs_to_dict (pairs : List Str) (result : Option Sink) : Dict × Option Sink :=
  pairsLoop pairs [] result

/-- `config_string_to_dict(string, result)` of the source (`string=None`
modelled as `none`). -/
def config_string_to_dict (string : Option Str) (result : Option Sink) :
    Dict × Option Sink :=
  match string with
  | none => ([], result)
  | some s => pairs_to_dict (splitChar SEPARATOR s) result

/-- `config_dict_to_string(dictionary)` of the source: render each pair as
`key=value` in iteration order and join with the separator. -/
def config_dict_to_string (dictionary : Dict) : Str :=
  joinChar SEPARATOR
    (dictionary.map (fun p => p.1 ++ ASSIGNMENT :: p.2))

/-- `config_txt_to_string(string)` of the source (`None` in, `None` out;
otherwise join the non-empty lines with the separator). -/
def config_txt_to_string (string : Option Str) : Option Str :=
  match string with
  | none => none
  | some s =>
      some (joinChar SEPARATOR ((pySplitlines s).filter (fun l => 0 < l.length)))

/-- An XML element tree: tag, text content (absent for self-closing or
child-only elements), and the list of direct child elements, in document
order. -/
inductive Xml where
  | node (tag : Str) (text : Option Str) (children : List Xml)
deriving Repr

/-- The tag of an element. -/
def Xml.tag : Xml → Str
  | .node t _ _ => t

/-- The text of an element (`elem.text`), `none` when null. -/
def Xml.text : Xml → Option Str
  | .node _ x _ => x

/-- The direct children of an element, in document order. -/
def Xml.children : Xml → List Xml
  | .node _ _ c => c

/-- lxml's `root.find(tag)` for a plain tag: the first direct child with
that tag, or `none`. -/
def xmlFind (root : Xml) (tag : Str) : Option Xml :=
  root.children.find? (fun e => e.tag == tag)

/-- The error text recorded by `config_xml_to_dict` when parsing fails. -/
def xmlError : Str := "An error occurred while parsing XML file".toList

/-- One iteration of the job loop of `config_xml_to_dict`: the `tag=text`
token appended for a root child, skipping the tasks container and
elements with null text. -/
def jobPair (elem : Xml) : Option Str :=
  if elem.tag ≠ TASKS_TAG then
    match elem.text with
    | some t => some (elem.tag ++ ASSIGNMENT :: pyStrip t)
    | none => none
  else none

/-- One iteration of the inner task loop of `config_xml_to_dict`: the
`tag=text` token appended for a task child with non-null text. -/
def taskPair (elem : Xml) : Option Str :=
  match elem.text with
  | some t => some (elem.tag ++ ASSIGNMENT :: pyStrip t)
  | none => none

/-- The outer task loop of `config_xml_to_dict`: append one dictionary
per child of the tasks container whose tag is the task tag. -/
def tasksLoop : List Xml → List Dict → List Dict
  | [], out => out
  | task :: rest, out =>
    if task.tag == TASK_TAG then
      tasksLoop rest
        (out ++ [(pairs_to_dict (task.children.filterMap taskPair) none).1])
    else
      tasksLoop rest out

/-- `config_xml_to_dict(contents, result, parse_job)` of the source.
`contents = none` models XML input on which `etree.fromstring` raises;
the blanket `except` marks the sink failed, records one error and
returns an empty dict.  The same handler also catches the `TypeError`
raised when the tasks container is missing (`root.find` returns `None`
and the loop iterates over it). -/
def config_xml_to_dict (contents : Option Xml) (result : Sink)
    (parseJob : Bool) : (Dict ⊕ List Dict) × Sink :=
  match contents with
  | none => (Sum.inl [], ({ result with passed := false }).add_error xmlError)
  | some root =>
    if parseJob then
      (Sum.inl (pairs_to_dict (root.children.filterMap jobPair) none).1, result)
    else
      match xmlFind root TASKS_TAG with
      | none => (Sum.inl [], ({ result with passed := false }).add_error xmlError)
      | some tasksElem => (Sum.inr (tasksLoop tasksElem.children []), result)

/-! ## Exact model of Python floats (IEEE-754 binary64)

Every finite double is a rational number; every CPython arithmetic
operation on doubles is the exact rational operation followed by
rounding to the nearest representable value (ties to even).  The model
represents each value by an explicit numerator/denominator pair with a
positive denominator, over plain integer arithmetic, and makes the
rounding explicit.  Only the normal range is modelled, which covers all
values arising here. -/

/-- An exact rational value: numerator and (positive) denominator.  No
normalisation is performed; operations keep the denominator positive. -/
structure Q where
  num : Int
  den : Int
deriving Repr

/-- The rational value of an integer. -/
def qInt (n : Int) : Q := ⟨n, 1⟩

/-- Exact product. -/
def qmul (a b : Q) : Q := ⟨a.num * b.num, a.den * b.den⟩

/-- Exact difference. -/
def qsub (a b : Q) : Q := ⟨a.num * b.den - b.num * a.den, a.den * b.den⟩

/-- Exact quotient (the divisor must be non-zero); keeps the denominator
positive. -/
def qdiv (a b : Q) : Q :=
  if b.num < 0 then ⟨-(a.num * b.den), a.den * (-b.num)⟩
  else ⟨a.num * b.den, a.den * b.num⟩

/-- Comparison `a < b` by cross-multiplication. -/
def qlt (a b : Q) : Bool := a.num * b.den < b.num * a.den

/-- Comparison `a ≤ b` by cross-multiplication. -/
def qle (a b : Q) : Bool := a.num * b.den ≤ b.num * a.den

/-- Absolute value. -/
def qabs (a : Q) : Q := if a.num < 0 then ⟨-a.num, a.den⟩ else a

/-- `math.floor`, exact on the rational value. -/
def qfloor (a : Q) : Int := Int.fdiv a.num a.den

/-- Ceiling, exact on the rational value. -/
def qceil (a : Q) : Int := -(Int.fdiv (-a.num) a.den)

/-- Round to the nearest integer, ties to even. -/
def qrne (a : Q) : Int :=
  let f := qfloor a
  let twiceFrac := 2 * (a.num - f * a.den)
  if twiceFrac < a.den then f
  else if a.den < twiceFrac then f + 1
  else if f % 2 = 0 then f else f + 1

/-- `⌊log2 n⌋` for a natural number, by fuelled halving (kernel-reducible). -/
def natLog2Go : Nat → Nat → Nat
  | 0, _ => 0
  | fuel + 1, n => if 2 ≤ n then natLog2Go fuel (n / 2) + 1 else 0

/-- `⌊log2 n⌋` for `n ≥ 1`. -/
def natLog2 (n : Nat) : Nat := natLog2Go n n

/-- `2 ^ k` as an exact rational, for an integer exponent. -/
def qpow2 (k : Int) : Q :=
  if 0 ≤ k then ⟨(Nat.pow 2 k.toNat : Nat), 1⟩ else ⟨1, (Nat.pow 2 (-k).toNat : Nat)⟩

/-- `⌊log2 q⌋` for a positive rational. -/
def qlog2floor (q : Q) : Int :=
  if qle (qInt 1) q then (natLog2 (qfloor q).toNat : Int)
  else -((natLog2 ((qceil ⟨q.den, q.num⟩).toNat - 1) : Int) + 1)

/-- Round an exact rational to the nearest IEEE-754 binary64 value
(round to nearest, ties to even). -/
def fl (q : Q) : Q :=
  if q.num = 0 then ⟨0, 1⟩
  else
    let a := qabs q
    let k := qlog2floor a
    let m := qrne (qmul a (qpow2 (52 - k)))
    let mag := qmul (qInt m) (qpow2 (k - 52))
    if q.num < 0 then ⟨-mag.num, mag.den⟩ else mag

/-- Python float subtraction: exact difference, correctly rounded. -/
def fsub (a b : Q) : Q := fl (qsub a b)

/-- Python float division: exact quotient, correctly rounded. -/
def fdiv (a b : Q) : Q := fl (qdiv a b)

/-- Python float multiplication: exact product, correctly rounded. -/
def fmul (a b : Q) : Q := fl (qmul a b)

/-- The binary64 value denoted by the decimal literal `num / den`
(CPython converts decimal float literals with correct rounding). -/
def pyFloat (num : Int) (den : Int) : Q := fl (qdiv (qInt num) (qInt den))

/-- The decimal digits of a natural number, as characters. -/
def natDigits (n : Nat) : Str := Nat.toDigits 10 n

/-- Left-pad with zeros to the given width. -/
def zfill (w : Nat) (s : Str) : Str := List.replicate (w - s.length) '0' ++ s

/-- C's `%0wd` for an integer: zero-padding goes between the sign and
the digits. -/
def fmtZpad (w : Nat) (n : Int) : Str :=
  if n < 0 then '-' :: zfill (w - 1) (natDigits n.natAbs)
  else zfill w (natDigits n.toNat)

/-- C's `%.3f` applied to an exact binary64 value: round the exact value
to three decimals (no double with three decimals is an exact tie, so the
tie rule is immaterial) and print with the sign of the input. -/
def format3f (q : Q) : Str :=
  let n := (qrne (qmul (qabs q) (qInt 1000))).toNat
  (if q.num < 0 then ['-'] else []) ++
    natDigits (n / 1000) ++ '.' :: zfill 3 (natDigits (n % 1000))

/-- `time_to_ssmmm(time_value)` of the source: `"%.3f" % time_value`. -/
def time_to_ssmmm (t : Q) : Str := format3f t

/-- `time_to_hhmmssmmm(time_value, decimal_separator)` of the source:
floor-decompose into hours, minutes, seconds, milliseconds with float
arithmetic and format each field zero-padded. -/
def time_to_hhmmssmmm (t : Q) (sep : Char) : Str :=
  let hours := qfloor (fdiv t (qInt 3600))
  let tmp := fsub t (qInt (hours * 3600))
  let minutes := qfloor (fdiv tmp (qInt 60))
  let tmp := fsub tmp (qInt (minutes * 60))
  let seconds := qfloor tmp
  let tmp := fsub tmp (qInt seconds)
  let milliseconds := qfloor (fmul tmp (qInt 1000))
  fmtZpad 2 hours ++ ':' :: fmtZpad 2 minutes ++ ':' :: fmtZpad 2 seconds
    ++ sep :: fmtZpad 3 milliseconds

/-- `time_to_srt(time_value)` of the source: the clock format with a
comma separator. -/
def time_to_srt (t : Q) : Str := time_to_hhmmssmmm t ','

/-- The dictionaries contained in a result of `config_xml_to_dict`: the
single dictionary of the job form, or the list of the tasks form. -/
def xmlDicts : Dict ⊕ List Dict → List Dict
  | Sum.inl d => [d]
  | Sum.inr l => l

/-- A sample tasks container with two task elements around a foreign
element, used to exercise the tasks path on concrete data. -/
def sampleTasks : Xml :=
  Xml.node TASKS_TAG none
    [Xml.node TASK_TAG none [Xml.node "k1".toList (some "v1".toList) []],
     Xml.node "note".toList none [],
     Xml.node TASK_TAG none [Xml.node "k2".toList (some " v2 ".toList) []]]

/-- A sample job root whose children are one property element and the
sample tasks container. -/
def sampleRoot : Xml :=
  Xml.node "job".toList none
    [Xml.node "lang".toList (some "en".toList) [], sampleTasks]

/-! ## Properties of `splitChar` and `joinChar` -/

/-- `splitChar` never returns an empty list of parts. -/
theorem splitChar_ne_nil (sep : Char) (s : Str) : splitChar sep s ≠ [] := by
  cases s with
  | nil => simp [splitChar]
  | cons c cs =>
    simp only [splitChar]
    by_cases h : c == sep
    · simp [h]
    · simp only [h]
      rcases hs : splitChar sep cs with _ | ⟨r, rs⟩ <;> simp

/-- Splitting a string that does not contain the separator yields the
string as the single part. -/
theorem splitChar_not_mem {sep : Char} {s : Str} (h : sep ∉ s) :
    splitChar sep s = [s] := by
  induction s with
  | nil => rfl
  | cons c cs ih =>
    simp only [List.mem_cons, not_or] at h
    have hc : (c == sep) = false := by
      simp only [beq_eq_false_iff_ne, ne_eq]
      exact fun hcs => h.1 hcs.symm
    simp only [splitChar, hc, Bool.false_eq_true, if_false, ih h.2]

/-- Splitting `t ++ sep :: rest` when `t` is separator-free peels off `t`
as the first part. -/
theorem splitChar_append {sep : Char} {t : Str} (rest : Str) (h : sep ∉ t) :
    splitChar sep (t ++ sep :: rest) = t :: splitChar sep rest := by
  induction t with
  | nil => simp [splitChar]
  | cons c t ih =>
    simp only [List.mem_cons, not_or] at h
    have hc : (c == sep) = false := by
      simp only [beq_eq_false_iff_ne, ne_eq]
      exact fun hcs => h.1 hcs.symm
    simp only [List.cons_append, splitChar, hc, Bool.false_eq_true, if_false,
      List.append_eq]
    rw [ih h.2]

/-- Joining the parts of a split recovers the original string. -/
theorem joinChar_splitChar (sep : Char) (s : Str) :
    joinChar sep (splitChar sep s) = s := by
  induction s with
  | nil => rfl
  | cons c cs ih =>
    simp only [splitChar]
    by_cases h : c == sep
    · simp only [h, if_true]
      rcases hs : splitChar sep cs with _ | ⟨r, rs⟩
      · exact absurd hs (splitChar_ne_nil sep cs)
      · rw [hs] at ih
        have : joinChar sep ([] :: r :: rs) = [] ++ sep :: joinChar sep (r :: rs) := rfl
        rw [this, ih]
        simp only [List.nil_append, List.cons.injEq, and_true]
        exact (beq_iff_eq.mp h).symm
    · simp only [h, Bool.false_eq_true, if_false]
      rcases hs : splitChar sep cs with _ | ⟨r, rs⟩
      · exact absurd hs (splitChar_ne_nil sep cs)
      · rw [hs] at ih
        rcases rs with _ | ⟨q, rs⟩
        · simpa [joinChar] using ih
        · have : joinChar sep ((c :: r) :: q :: rs)
              = (c :: r) ++ sep :: joinChar sep (q :: rs) := rfl
          rw [this]
          have ih2 : r ++ sep :: joinChar sep (q :: rs) = cs := ih
          simp [← ih2]

/-- Splitting the join of non-empty, separator-free parts recovers the
parts. -/
theorem splitChar_joinChar (sep : Char) (parts : List Str)
    (hne : parts ≠ []) (h : ∀ p ∈ parts, sep ∉ p) :
    splitChar sep (joinChar sep parts) = parts := by
  induction parts with
  | nil => exact absurd rfl hne
  | cons p rest ih =>
    rcases rest with _ | ⟨q, rest⟩
    · simpa [joinChar] using splitChar_not_mem (h p (by simp))
    · have : joinChar sep (p :: q :: rest) = p ++ sep :: joinChar sep (q :: rest) := rfl
      rw [this, splitChar_append _ (h p (by simp))]
      rw [ih (by simp) (fun x hx => h x (by simp [hx]))]

/-- Every part produced by `splitChar` is separator-free. -/
theorem splitChar_parts {sep : Char} {s : Str} :
    ∀ p ∈ splitChar sep s, sep ∉ p := by
  induction s with
  | nil => intro p hp; simp [splitChar] at hp; simp [hp]
  | cons c cs ih =>
    intro p hp
    simp only [splitChar] at hp
    by_cases h : c == sep
    · simp only [h, if_true, List.mem_cons] at hp
      rcases hp with rfl | hp
      · simp
      · exact ih p hp
    · simp only [h, Bool.false_eq_true, if_false] at hp
      rcases hs : splitChar sep cs with _ | ⟨r, rs⟩
      · exact absurd hs (splitChar_ne_nil sep cs)
      · rw [hs] at hp
        simp only [List.mem_cons] at hp
        rcases hp with rfl | hp
        · intro hmem
          rcases List.mem_cons.mp hmem with rfl | hmem
          · exact h (by simp)
          · exact ih r (by rw [hs]; simp) hmem
        · exact ih p (by rw [hs]; simp [hp])

/-- Appending a trailing separator appends an empty final part. -/
theorem splitChar_concat_sep (sep : Char) (s : Str) :
    splitChar sep (s ++ [sep]) = splitChar sep s ++ [[]] := by
  induction s with
  | nil => simp [splitChar]
  | cons c cs ih =>
    by_cases h : c == sep
    · simp only [List.cons_append, splitChar, h, if_true, List.append_eq, ih]
    · simp only [List.cons_append, splitChar, h, Bool.false_eq_true, if_false,
        List.append_eq]
      rw [ih]
      rcases hs : splitChar sep cs with _ | ⟨r, rs⟩
      · exact absurd hs (splitChar_ne_nil sep cs)
      · simp

/-! ## Properties of `validPair`, `dictInsert` and `pairsLoop` -/

/-- A `key=value` token built from a non-empty, assignment-free key and
value is recognised as a valid pair. -/
theorem validPair_mk {k v : Str} (hk : k ≠ []) (hv : v ≠ [])
    (hka : ASSIGNMENT ∉ k) (hva : ASSIGNMENT ∉ v) :
    validPair (k ++ ASSIGNMENT :: v) = some (k, v) := by
  unfold validPair
  rw [splitChar_append _ hka, splitChar_not_mem hva]
  simp [List.length_pos, hk, hv]

/-- Inversion: a token recognised as the valid pair `(k, v)` is exactly
`k ++ '=' :: v` with `k` and `v` non-empty and assignment-free. -/
theorem validPair_inv {p : Str} {k v : Str} (h : validPair p = some (k, v)) :
    p = k ++ ASSIGNMENT :: v ∧ k ≠ [] ∧ v ≠ [] ∧
      ASSIGNMENT ∉ k ∧ ASSIGNMENT ∉ v := by
  unfold validPair at h
  rcases hs : splitChar ASSIGNMENT p with _ | ⟨a, _ | ⟨b, _ | ⟨c, rest⟩⟩⟩ <;>
    rw [hs] at h
  · exact absurd h (by simp)
  · exact absurd h (by simp)
  · change (if 0 < a.length ∧ 0 < b.length then some (a, b) else none)
      = some (k, v) at h
    by_cases hab : 0 < a.length ∧ 0 < b.length
    · rw [if_pos hab] at h
      simp only [Option.some.injEq, Prod.mk.injEq] at h
      obtain ⟨rfl, rfl⟩ := h
      refine ⟨?_, ?_, ?_, ?_, ?_⟩
      · have hj := joinChar_splitChar ASSIGNMENT p
        rw [hs] at hj
        exact hj.symm
      · exact List.length_pos.mp hab.1
      · exact List.length_pos.mp hab.2
      · exact splitChar_parts a (by rw [hs]; simp)
      · exact splitChar_parts b (by rw [hs]; simp)
    · rw [if_neg hab] at h
      exact absurd h (by simp)
  · exact absurd h (by simp)

/-- A token recognised as a valid pair is non-empty. -/
theorem validPair_ne_nil {p : Str} {k v : Str}
    (h : validPair p = some (k, v)) : p ≠ [] := by
  rcases validPair_inv h with ⟨rfl, hk, -, -, -⟩
  simp [hk]

/-- A token ending in the assignment symbol is never a valid pair (its
value side is empty). -/
theorem validPair_trailing (s : Str) : validPair (s ++ [ASSIGNMENT]) = none := by
  unfold validPair
  rw [splitChar_concat_sep]
  rcases hs : splitChar ASSIGNMENT s with _ | ⟨a, _ | ⟨b, rest⟩⟩
  · exact absurd hs (splitChar_ne_nil _ s)
  · simp
  · simp

/-- Inserting a key not present in the dictionary appends the pair. -/
theorem dictInsert_fresh {d : Dict} {k : Str} (v : Str)
    (h : ∀ p ∈ d, p.1 ≠ k) : dictInsert d k v = d ++ [(k, v)] := by
  unfold dictInsert
  rw [if_neg]
  simp only [List.any_eq_true, beq_iff_eq, not_exists]
  intro p
  intro hcl
  rcases hcl with ⟨hp, hk⟩
  exact h p hp hk

/-- Every entry of `dictInsert d k v` is `(k, v)` or an entry of `d`. -/
theorem dictInsert_mem {d : Dict} {k v : Str} {p : Str × Str}
    (h : p ∈ dictInsert d k v) : p = (k, v) ∨ p ∈ d := by
  unfold dictInsert at h
  by_cases ha : d.any (fun p => p.1 == k)
  · rw [if_pos ha] at h
    rcases List.mem_map.mp h with ⟨q, hq, hfq⟩
    by_cases hk : q.1 == k
    · left; rw [← hfq]; simp [hk]
    · right
      have : (if (q.1 == k) = true then (k, v) else q) = q := by
        simp [hk]
      rw [← hfq, this]
      exact hq
  · rw [if_neg ha] at h
    rcases List.mem_append.mp h with hq | hq
    · right; exact hq
    · left; simpa using hq

/-- `dictInsert` preserves distinctness of the keys. -/
theorem dictInsert_nodup {d : Dict} {k : Str} (v : Str)
    (h : (d.map Prod.fst).Nodup) :
    ((dictInsert d k v).map Prod.fst).Nodup := by
  unfold dictInsert
  by_cases ha : d.any (fun p => p.1 == k)
  · rw [if_pos ha]
    have : ((d.map (fun p => if p.1 == k then (k, v) else p)).map Prod.fst)
        = d.map Prod.fst := by
      rw [List.map_map]
      refine List.map_congr_left ?_
      intro p _
      by_cases hk : p.1 == k
      · simp only [Function.comp_apply, hk, if_true]
        exact (beq_iff_eq.mp hk).symm
      · have hk2 : ¬(p.1 = k) := by simpa using hk
        simp [Function.comp_apply, hk2]
    rw [this]
    exact h
  · rw [if_neg ha]
    simp only [List.any_eq_true, beq_iff_eq, not_exists] at ha
    rw [List.map_append]
    simp only [List.nodup_append, List.map_cons, List.map_nil]
    refine ⟨h, List.nodup_singleton k, ?_⟩
    intro x hx
    rcases List.mem_map.mp hx with ⟨q, hq, rfl⟩
    simp only [List.mem_singleton]
    intro hk
    exact (ha q) ⟨hq, hk⟩

/-- One step of the loop on a valid token inserts the pair. -/
theorem pairsLoop_valid {tk k v : Str} (h : validPair tk = some (k, v))
    (rest : List Str) (d : Dict) (r : Option Sink) :
    pairsLoop (tk :: rest) d r = pairsLoop rest (dictInsert d k v) r := by
  have hne : tk ≠ [] := validPair_ne_nil h
  simp only [pairsLoop, if_pos (List.length_pos.mpr hne), h]

/-- One step of the loop on an invalid non-empty token with a sink
records one warning. -/
theorem pairsLoop_invalid {tk : Str} (h : validPair tk = none)
    (hne : tk ≠ []) (rest : List Str) (d : Dict) (sink : Sink) :
    pairsLoop (tk :: rest) d (some sink)
      = pairsLoop rest d (some (sink.add_warning (invalidWarning tk))) := by
  simp only [pairsLoop, if_pos (List.length_pos.mpr hne), h]

/-- One step of the loop on an invalid token without a sink skips it. -/
theorem pairsLoop_invalid_none {tk : Str} (h : validPair tk = none)
    (rest : List Str) (d : Dict) :
    pairsLoop (tk :: rest) d none = pairsLoop rest d none := by
  by_cases hne : 0 < tk.length
  · simp only [pairsLoop, if_pos hne, h]
  · simp only [pairsLoop, if_neg hne]

/-- The loop over a concatenation runs the two halves in sequence. -/
theorem pairsLoop_append (xs ys : List Str) (d : Dict) (r : Option Sink) :
    pairsLoop (xs ++ ys) d r
      = pairsLoop ys (pairsLoop xs d r).1 (pairsLoop xs d r).2 := by
  induction xs generalizing d r with
  | nil => rfl
  | cons pair xs ih =>
    simp only [List.cons_append, pairsLoop]
    by_cases h : 0 < pair.length
    · simp only [if_pos h]
      rcases hv : validPair pair with _ | ⟨k, v⟩
      · rcases r with _ | sink
        · exact ih _ _
        · exact ih _ _
      · exact ih _ _
    · simp only [if_neg h]
      exact ih _ _

/-- Without a sink the loop never produces one. -/
theorem pairsLoop_none (pairs : List Str) (d : Dict) :
    (pairsLoop pairs d none).2 = none := by
  induction pairs generalizing d with
  | nil => rfl
  | cons pair pairs ih =>
    simp only [pairsLoop]
    by_cases h : 0 < pair.length
    · simp only [if_pos h]
      rcases hv : validPair pair with _ | ⟨k, v⟩
      · exact ih _
      · exact ih _
    · simp only [if_neg h]
      exact ih _

/-- Feeding the token list of a dictionary whose keys are distinct and
fresh for the accumulator appends all its pairs, touching no sink. -/
theorem pairsLoop_tokens (m : Dict) (d : Dict) (r : Option Sink)
    (h1 : ∀ p ∈ m, p.1 ≠ [] ∧ p.2 ≠ [] ∧ ASSIGNMENT ∉ p.1 ∧ ASSIGNMENT ∉ p.2)
    (h2 : ∀ p ∈ m, ∀ q ∈ d, q.1 ≠ p.1)
    (h3 : (m.map Prod.fst).Nodup) :
    pairsLoop (m.map (fun p => p.1 ++ ASSIGNMENT :: p.2)) d r = (d ++ m, r) := by
  induction m generalizing d with
  | nil => simp [pairsLoop]
  | cons p m ih =>
    obtain ⟨hk, hv, hka, hva⟩ := h1 p (by simp)
    have h3' : p.1 ∉ List.map Prod.fst m ∧ (List.map Prod.fst m).Nodup := by
      simpa using h3
    have h1m : ∀ q ∈ m,
        q.1 ≠ [] ∧ q.2 ≠ [] ∧ ASSIGNMENT ∉ q.1 ∧ ASSIGNMENT ∉ q.2 :=
      fun q hq => h1 q (by simp [hq])
    have h2m : ∀ q ∈ m, ∀ x ∈ d ++ [(p.1, p.2)], x.1 ≠ q.1 := by
      intro q hq x hx
      rcases List.mem_append.mp hx with hx | hx
      · exact h2 q (by simp [hq]) x hx
      · have hxp : x = (p.1, p.2) := by simpa using hx
        rw [hxp]
        intro hxe
        exact h3'.1 (hxe ▸ List.mem_map_of_mem Prod.fst hq)
    rw [List.map_cons,
      pairsLoop_valid (validPair_mk hk hv hka hva) _ _ _,
      dictInsert_fresh p.2 (fun q hq => h2 p (by simp) q hq),
      ih (d ++ [(p.1, p.2)]) h1m h2m h3'.2]
    simp

/-- Every entry of the dictionary built by the loop comes from the
accumulator or from a token recognised as a valid pair. -/
theorem pairsLoop_entries (pairs : List Str) (d : Dict) (r : Option Sink) :
    ∀ p ∈ (pairsLoop pairs d r).1,
      p ∈ d ∨ ∃ tk ∈ pairs, validPair tk = some p := by
  induction pairs generalizing d r with
  | nil => intro p hp; exact Or.inl hp
  | cons tk pairs ih =>
    intro p hp
    simp only [pairsLoop] at hp
    by_cases h : 0 < tk.length
    · rw [if_pos h] at hp
      rcases hv : validPair tk with _ | ⟨k, v⟩ <;> rw [hv] at hp
      · rcases r with _ | sink
        · rcases ih _ _ p hp with hd | ⟨tk', htk', hvp⟩
          · exact Or.inl hd
          · exact Or.inr ⟨tk', by simp [htk'], hvp⟩
        · rcases ih _ _ p hp with hd | ⟨tk', htk', hvp⟩
          · exact Or.inl hd
          · exact Or.inr ⟨tk', by simp [htk'], hvp⟩
      · rcases ih _ _ p hp with hd | ⟨tk', htk', hvp⟩
        · rcases dictInsert_mem hd with rfl | hd
          · exact Or.inr ⟨tk, by simp, hv⟩
          · exact Or.inl hd
        · exact Or.inr ⟨tk', by simp [htk'], hvp⟩
    · rw [if_neg h] at hp
      rcases ih _ _ p hp with hd | ⟨tk', htk', hvp⟩
      · exact Or.inl hd
      · exact Or.inr ⟨tk', by simp [htk'], hvp⟩

/-- The dictionary built by the loop always has distinct keys. -/
theorem pairsLoop_nodup (pairs : List Str) (d : Dict) (r : Option Sink)
    (h : (d.map Prod.fst).Nodup) :
    (((pairsLoop pairs d r).1).map Prod.fst).Nodup := by
  induction pairs generalizing d r with
  | nil => exact h
  | cons tk pairs ih =>
    simp only [pairsLoop]
    by_cases htk : 0 < tk.length
    · rw [if_pos htk]
      rcases hv : validPair tk with _ | ⟨k, v⟩
      · rcases r with _ | sink
        · exact ih _ _ h
        · exact ih _ _ h
      · exact ih _ _ (dictInsert_nodup v h)
    · rw [if_neg htk]
      exact ih _ _ h

/-- Replacing the value at an existing key makes lookup find the new
value. -/
theorem dictFind_replace {k : Str} (v : Str) (d : Dict)
    (h : d.any (fun p => p.1 == k) = true) :
    dictFind (d.map (fun p => if p.1 == k then (k, v) else p)) k = some v := by
  induction d with
  | nil => simp at h
  | cons q d ih =>
    by_cases hq : (q.1 == k) = true
    · rw [List.map_cons, if_pos hq]
      unfold dictFind
      rw [List.find?_cons_of_pos _ (by simp)]
      rfl
    · rw [List.map_cons, if_neg hq]
      have ha : d.any (fun p => p.1 == k) = true := by
        rcases List.any_eq_true.mp h with ⟨x, hx, hxk⟩
        rcases List.mem_cons.mp hx with rfl | hx
        · exact absurd hxk hq
        · exact List.any_eq_true.mpr ⟨x, hx, hxk⟩
      unfold dictFind at ih ⊢
      rw [@List.find?_cons_of_neg _ (fun p => p.1 == k) q _ hq]
      exact ih ha

/-- Appending a fresh key makes lookup find the appended value. -/
theorem dictFind_fresh {k : Str} (v : Str) (d : Dict)
    (h : ¬d.any (fun p => p.1 == k) = true) :
    dictFind (d ++ [(k, v)]) k = some v := by
  induction d with
  | nil =>
    unfold dictFind
    rw [List.nil_append, List.find?_cons_of_pos _ (by simp)]
    rfl
  | cons q d ih =>
    have hq : ¬(q.1 == k) = true := by
      intro hq
      exact h (List.any_eq_true.mpr ⟨q, by simp, hq⟩)
    have ha : ¬d.any (fun p => p.1 == k) = true := by
      intro hx
      rcases List.any_eq_true.mp hx with ⟨x, hx, hxk⟩
      exact h (List.any_eq_true.mpr ⟨x, by simp [hx], hxk⟩)
    unfold dictFind at ih ⊢
    rw [List.cons_append, @List.find?_cons_of_neg _ (fun p => p.1 == k) q _ hq]
    exact ih ha

/-- After an insertion, looking up the inserted key finds the inserted
value. -/
theorem dictFind_insert (d : Dict) (k v : Str) :
    dictFind (dictInsert d k v) k = some v := by
  unfold dictInsert
  by_cases ha : d.any (fun p => p.1 == k)
  · rw [if_pos ha]
    exact dictFind_replace v d ha
  · rw [if_neg ha]
    exact dictFind_fresh v d ha

/-- The task loop appends exactly one dictionary per child whose tag is
the task tag, in document order. -/
theorem tasksLoop_eq (ts : List Xml) (out : List Dict) :
    tasksLoop ts out
      = out ++ (ts.filter (fun t => t.tag == TASK_TAG)).map
          (fun t => (pairs_to_dict (t.children.filterMap taskPair) none).1) := by
  induction ts generalizing out with
  | nil => simp [tasksLoop]
  | cons task ts ih =>
    by_cases h : (task.tag == TASK_TAG) = true
    · rw [tasksLoop, if_pos h, ih,
        @List.filter_cons_of_pos _ (fun t => t.tag == TASK_TAG) task ts h,
        List.map_cons, List.append_assoc]
      rfl
    · rw [tasksLoop, if_neg h, ih,
        @List.filter_cons_of_neg _ (fun t => t.tag == TASK_TAG) task ts
          (by simpa using h)]

/-- Round trip at the heart of the codec: re-parsing the rendering of a
dictionary with distinct, non-empty, separator-free keys and values
returns the dictionary unchanged and leaves any sink untouched. -/
theorem roundtrip_core (d : Dict)
    (hnd : (d.map Prod.fst).Nodup)
    (hp : ∀ p ∈ d, p.1 ≠ [] ∧ p.2 ≠ [] ∧
      SEPARATOR ∉ p.1 ∧ ASSIGNMENT ∉ p.1 ∧ SEPARATOR ∉ p.2 ∧ ASSIGNMENT ∉ p.2)
    (r : Option Sink) :
    pairs_to_dict (splitChar SEPARATOR (config_dict_to_string d)) r = (d, r) := by
  rcases hd : d with _ | ⟨p, m⟩
  · rfl
  rw [← hd]
  have htokens : splitChar SEPARATOR (config_dict_to_string d)
      = d.map (fun p => p.1 ++ ASSIGNMENT :: p.2) := by
    unfold config_dict_to_string
    refine splitChar_joinChar SEPARATOR _ (by simp [hd]) ?_
    intro tk htk
    rcases List.mem_map.mp htk with ⟨q, hq, rfl⟩
    obtain ⟨-, -, hs1, -, hs2, -⟩ := hp q hq
    intro hmem
    rcases List.mem_append.mp hmem with hmem | hmem
    · exact hs1 hmem
    · rcases List.mem_cons.mp hmem with hsep | hmem
      · exact absurd hsep (by decide)
      · exact hs2 hmem
  rw [htokens]
  unfold pairs_to_dict
  rw [pairsLoop_tokens d [] r
    (fun q hq => by
      obtain ⟨h1, h2, -, h3, -, h4⟩ := hp q hq
      exact ⟨h1, h2, h3, h4⟩)
    (fun q _ x hx => absurd hx (List.not_mem_nil x))
    hnd]
  simp

/-! ## The claims -/

/-- C1: for every mapping `m` whose keys and values are non-empty strings
containing neither the pair-separator symbol nor the assignment-separator
symbol, `config_string_to_dict (config_dict_to_string m)` equals `m`
(and any supplied sink is returned untouched). -/
theorem claim_C1_roundtrip (m : Dict)
    (hnd : (m.map Prod.fst).Nodup)
    (hp : ∀ p ∈ m, p.1 ≠ [] ∧ p.2 ≠ [] ∧
      SEPARATOR ∉ p.1 ∧ ASSIGNMENT ∉ p.1 ∧ SEPARATOR ∉ p.2 ∧ ASSIGNMENT ∉ p.2)
    (r : Option Sink) :
    config_string_to_dict (some (config_dict_to_string m)) r = (m, r) :=
  roundtrip_core m hnd hp r

/-- Witness for C1 at the concrete two-entry mapping `{a: 1, b: 2}`. -/
theorem claim_C1_roundtrip_witness :
    (([(['a'], ['1']), (['b'], ['2'])].map Prod.fst).Nodup)
    ∧ (∀ p ∈ ([(['a'], ['1']), (['b'], ['2'])] : Dict),
        p.1 ≠ [] ∧ p.2 ≠ [] ∧ SEPARATOR ∉ p.1 ∧ ASSIGNMENT ∉ p.1 ∧
          SEPARATOR ∉ p.2 ∧ ASSIGNMENT ∉ p.2)
    ∧ config_string_to_dict
        (some (config_dict_to_string [(['a'], ['1']), (['b'], ['2'])]))
        (some initSink)
      = ([(['a'], ['1']), (['b'], ['2'])], some initSink) :=
  ⟨by decide, by decide,
    claim_C1_roundtrip [(['a'], ['1']), (['b'], ['2'])] (by decide) (by decide)
      (some initSink)⟩

/-- C2 (amended): on XML parse failure `config_xml_to_dict` marks the
sink failed, appends exactly one error, and returns an empty *mapping*
in both modes — also when `parse_job` is false, where the claim expected
an empty sequence; no exception escapes (the model is total). -/
theorem claim_C2_xml_failure (s : Sink) (parseJob : Bool) :
    config_xml_to_dict none s parseJob
      = (Sum.inl [], ⟨false, s.errors ++ [xmlError], s.warnings⟩) := rfl

/-- Counterexample to C2 as stated: with `parse_job = false` the failure
path still returns the empty mapping, not an empty sequence. -/
theorem claim_C2_counterexample :
    (config_xml_to_dict none initSink false).1 ≠ Sum.inr [] := by decide

/-- C3: a pairs list made of one well-formed token and one malformed
non-empty token yields the one-entry mapping, records exactly one
warning naming the offending token when a sink is supplied, and skips
the malformed token silently when no sink is supplied — in either
order of the two tokens. -/
theorem claim_C3_leniency (good bad k v : Str) (s : Sink)
    (hg : validPair good = some (k, v)) (hbne : bad ≠ [])
    (hb : validPair bad = none) :
    pairs_to_dict [good, bad] (some s)
        = ([(k, v)], some (s.add_warning (invalidWarning bad)))
    ∧ pairs_to_dict [bad, good] (some s)
        = ([(k, v)], some (s.add_warning (invalidWarning bad)))
    ∧ pairs_to_dict [good, bad] none = ([(k, v)], none)
    ∧ pairs_to_dict [bad, good] none = ([(k, v)], none) := by
  have h1 : dictInsert [] k v = [(k, v)] := rfl
  refine ⟨?_, ?_, ?_, ?_⟩
  · unfold pairs_to_dict
    rw [pairsLoop_valid hg, h1, pairsLoop_invalid hb hbne]
    rfl
  · unfold pairs_to_dict
    rw [pairsLoop_invalid hb hbne, pairsLoop_valid hg, h1]
    rfl
  · unfold pairs_to_dict
    rw [pairsLoop_valid hg, h1, pairsLoop_invalid_none hb]
    rfl
  · unfold pairs_to_dict
    rw [pairsLoop_invalid_none hb, pairsLoop_valid hg, h1]
    rfl

/-- Witness for C3 on `["a=b", "noequals"]`. -/
theorem claim_C3_leniency_witness :
    validPair "a=b".toList = some (['a'], ['b'])
    ∧ "noequals".toList ≠ []
    ∧ validPair "noequals".toList = none
    ∧ pairs_to_dict ["a=b".toList, "noequals".toList] (some initSink)
        = ([(['a'], ['b'])],
           some (initSink.add_warning (invalidWarning "noequals".toList))) :=
  ⟨by decide, by decide, by decide,
    (claim_C3_leniency "a=b".toList "noequals".toList ['a'] ['b'] initSink
      (by decide) (by decide) (by decide)).1⟩

/-- C4: the three correct formatter examples hold, but
`time_to_hhmmssmmm(3612.345)` evaluates to `"01:00:12.344"`, not the
`"01:00:12.345"` promised by the claim and by the function's own
docstring: the binary64 value of the literal `3612.345` is slightly
below `3612.345`, so the millisecond floor lands on `344`. -/
theorem claim_C4_formatting :
    time_to_ssmmm (pyFloat 12345678 1000000) = "12.346".toList
    ∧ time_to_hhmmssmmm (pyFloat 3612345 1000) '.' = "01:00:12.344".toList
    ∧ time_to_hhmmssmmm (pyFloat 3612345 1000) '.' ≠ "01:00:12.345".toList
    ∧ time_to_srt (pyFloat 83456789 1000000) = "00:01:23,456".toList
    ∧ time_to_hhmmssmmm (qInt 12) '.' = "00:00:12.000".toList := by decide

/-- C5 (amended): for null input `config_txt_to_string` returns null
(not an error and not an empty string); for empty non-null input it
returns the empty string. -/
theorem claim_C5_null_text :
    config_txt_to_string none = none
    ∧ config_txt_to_string (some []) = some [] := ⟨rfl, rfl⟩

/-- Counterexample to C5 as stated: on null input the function does not
return an empty string — it returns null. -/
theorem claim_C5_counterexample :
    config_txt_to_string none ≠ some [] := by decide

/-- C6: parsing `"a=1|a=2"` yields `{a: "2"}` with no warning on the
supplied sink; in general, appending a later valid pair overwrites the
value at its key without touching the sink, and looking the key up
afterwards finds the new value. -/
theorem claim_C6_duplicate_keys :
    (∀ s : Sink, config_string_to_dict (some "a=1|a=2".toList) (some s)
        = ([(['a'], ['2'])], some s))
    ∧ (∀ (ps : List Str) (tk k v : Str) (s : Sink),
        validPair tk = some (k, v) →
        (pairs_to_dict (ps ++ [tk]) (some s)).1
            = dictInsert (pairs_to_dict ps (some s)).1 k v
        ∧ (pairs_to_dict (ps ++ [tk]) (some s)).2 = (pairs_to_dict ps (some s)).2
        ∧ dictFind (pairs_to_dict (ps ++ [tk]) (some s)).1 k = some v) := by
  constructor
  · intro s
    rfl
  · intro ps tk k v s hv
    refine ⟨?_, ?_, ?_⟩
    · unfold pairs_to_dict
      rw [pairsLoop_append ps [tk] [] (some s), pairsLoop_valid hv]
      rfl
    · unfold pairs_to_dict
      rw [pairsLoop_append ps [tk] [] (some s), pairsLoop_valid hv]
      rfl
    · unfold pairs_to_dict
      rw [pairsLoop_append ps [tk] [] (some s), pairsLoop_valid hv]
      exact dictFind_insert _ k v

/-- Witness for C6's general overwrite part on `["x=1"] ++ ["x=2"]`. -/
theorem claim_C6_duplicate_keys_witness :
    validPair "x=2".toList = some (['x'], ['2'])
    ∧ dictFind (pairs_to_dict (["x=1".toList] ++ ["x=2".toList])
        (some initSink)).1 ['x'] = some ['2'] :=
  ⟨by decide,
    (claim_C6_duplicate_keys.2 ["x=1".toList] "x=2".toList ['x'] ['2'] initSink
      (by decide)).2.2⟩

/-- C7: for a well-formed tasks document (one whose root has a
tasks-container child), the tasks mode returns exactly one mapping per
direct child of the container carrying the task tag, in document order,
and leaves the sink untouched. -/
theorem claim_C7_tasks_order (root : Xml) (s : Sink) (tasksElem : Xml)
    (hfind : xmlFind root TASKS_TAG = some tasksElem) :
    config_xml_to_dict (some root) s false
      = (Sum.inr ((tasksElem.children.filter (fun t => t.tag == TASK_TAG)).map
          (fun t => (pairs_to_dict (t.children.filterMap taskPair) none).1)), s) := by
  have hstep : config_xml_to_dict (some root) s false
      = match xmlFind root TASKS_TAG with
        | none => (Sum.inl [], ({ s with passed := false }).add_error xmlError)
        | some te => (Sum.inr (tasksLoop te.children []), s) := rfl
  rw [hstep, hfind]
  show (Sum.inr (tasksLoop tasksElem.children []), s) = _
  rw [tasksLoop_eq]
  simp

/-- Witness for C7 on a concrete document with two task elements around
a foreign element. -/
theorem claim_C7_tasks_order_witness :
    config_xml_to_dict (some sampleRoot) initSink false
      = (Sum.inr [[(['k', '1'], ['v', '1'])], [(['k', '2'], ['v', '2'])]],
         initSink) :=
  (claim_C7_tasks_order sampleRoot initSink sampleTasks rfl).trans (by decide)

/-- C8 (amended): parse, re-encode, split, re-parse is the identity on
the first parse, provided the valid pairs have pairwise distinct keys
(the claim's own precondition) *and* their keys and values do not
contain the pair-separator symbol — without the latter, a value such as
`"b|c"` is re-split at the separator and the round trip fails. -/
theorem claim_C8_idempotence (pairs : List Str)
    (_h1 : ((pairs.filterMap validPair).map Prod.fst).Nodup)
    (h2 : ∀ p ∈ pairs.filterMap validPair, SEPARATOR ∉ p.1 ∧ SEPARATOR ∉ p.2) :
    (pairs_to_dict (splitChar SEPARATOR
        (config_dict_to_string (pairs_to_dict pairs none).1)) none).1
      = (pairs_to_dict pairs none).1 := by
  have hnd : (((pairs_to_dict pairs none).1).map Prod.fst).Nodup :=
    pairsLoop_nodup pairs [] none (by simp)
  have hent : ∀ p ∈ (pairs_to_dict pairs none).1,
      p ∈ pairs.filterMap validPair := by
    intro p hp
    rcases pairsLoop_entries pairs [] none p hp with h0 | ⟨tk, htk, hv⟩
    · exact absurd h0 (List.not_mem_nil p)
    · exact List.mem_filterMap.mpr ⟨tk, htk, hv⟩
  have hp : ∀ p ∈ (pairs_to_dict pairs none).1,
      p.1 ≠ [] ∧ p.2 ≠ [] ∧ SEPARATOR ∉ p.1 ∧ ASSIGNMENT ∉ p.1 ∧
        SEPARATOR ∉ p.2 ∧ ASSIGNMENT ∉ p.2 := by
    intro p hmem
    have hm := hent p hmem
    obtain ⟨hs1, hs2⟩ := h2 p hm
    rcases List.mem_filterMap.mp hm with ⟨tk, -, hv⟩
    obtain ⟨-, hk, hvne, hka, hva⟩ := validPair_inv hv
    exact ⟨hk, hvne, hs1, hka, hs2, hva⟩
  rw [roundtrip_core (pairs_to_dict pairs none).1 hnd hp none]

/-- Counterexample to C8 as stated: the single valid pair of
`["a=b|c"]` has trivially distinct keys, yet the round trip loses the
part of the value after the separator. -/
theorem claim_C8_counterexample :
    ((["a=b|c".toList].filterMap validPair).map Prod.fst).Nodup
    ∧ (pairs_to_dict (splitChar SEPARATOR
        (config_dict_to_string (pairs_to_dict ["a=b|c".toList] none).1)) none).1
      ≠ (pairs_to_dict ["a=b|c".toList] none).1 := by decide

/-- Witness for C8 on `["a=b", "c=d", "bad"]`. -/
theorem claim_C8_idempotence_witness :
    ((["a=b".toList, "c=d".toList, "bad".toList].filterMap validPair).map
        Prod.fst).Nodup
    ∧ (pairs_to_dict (splitChar SEPARATOR
        (config_dict_to_string
          (pairs_to_dict ["a=b".toList, "c=d".toList, "bad".toList] none).1))
        none).1
      = (pairs_to_dict ["a=b".toList, "c=d".toList, "bad".toList] none).1 :=
  ⟨by decide,
    claim_C8_idempotence ["a=b".toList, "c=d".toList, "bad".toList]
      (by decide) (by decide)⟩

/-- C9 (implicit invariant): every dictionary produced by
`pairs_to_dict`, by `config_string_to_dict`, or appearing in the result
of `config_xml_to_dict` contains only non-empty keys and values, none of
which contains the assignment symbol. -/
theorem claim_C9_invariant :
    (∀ (pairs : List Str) (r : Option Sink), ∀ p ∈ (pairs_to_dict pairs r).1,
      p.1 ≠ [] ∧ p.2 ≠ [] ∧ ASSIGNMENT ∉ p.1 ∧ ASSIGNMENT ∉ p.2)
    ∧ (∀ (s : Option Str) (r : Option Sink),
        ∀ p ∈ (config_string_to_dict s r).1,
        p.1 ≠ [] ∧ p.2 ≠ [] ∧ ASSIGNMENT ∉ p.1 ∧ ASSIGNMENT ∉ p.2)
    ∧ (∀ (c : Option Xml) (s : Sink) (pj : Bool),
        ∀ d ∈ xmlDicts (config_xml_to_dict c s pj).1, ∀ p ∈ d,
        p.1 ≠ [] ∧ p.2 ≠ [] ∧ ASSIGNMENT ∉ p.1 ∧ ASSIGNMENT ∉ p.2) := by
  have base : ∀ (pairs : List Str) (r : Option Sink),
      ∀ p ∈ (pairs_to_dict pairs r).1,
      p.1 ≠ [] ∧ p.2 ≠ [] ∧ ASSIGNMENT ∉ p.1 ∧ ASSIGNMENT ∉ p.2 := by
    intro pairs r p hp
    rcases pairsLoop_entries pairs [] r p hp with h0 | ⟨tk, -, hv⟩
    · exact absurd h0 (List.not_mem_nil p)
    · obtain ⟨-, hk, hvne, hka, hva⟩ := validPair_inv hv
      exact ⟨hk, hvne, hka, hva⟩
  refine ⟨base, ?_, ?_⟩
  · intro s r p hp
    rcases s with _ | str
    · exact absurd hp (List.not_mem_nil p)
    · exact base _ r p hp
  · intro c s pj d hd p hp
    rcases c with _ | root
    · have hde : d = [] := by
        simpa [config_xml_to_dict, xmlDicts] using hd
      rw [hde] at hp
      exact absurd hp (List.not_mem_nil p)
    rcases pj with _ | _
    · have hstep : config_xml_to_dict (some root) s false
          = match xmlFind root TASKS_TAG with
            | none => (Sum.inl [], ({ s with passed := false }).add_error xmlError)
            | some te => (Sum.inr (tasksLoop te.children []), s) := rfl
      rw [hstep] at hd
      rcases hfind : xmlFind root TASKS_TAG with _ | te <;> rw [hfind] at hd
      · have hde : d = [] := by simpa [xmlDicts] using hd
        rw [hde] at hp
        exact absurd hp (List.not_mem_nil p)
      · have hd2 : d ∈ tasksLoop te.children [] := by
          simpa [xmlDicts] using hd
        rw [tasksLoop_eq] at hd2
        simp only [List.nil_append] at hd2
        rcases List.mem_map.mp hd2 with ⟨t, -, rfl⟩
        exact base _ none p hp
    · have hd2 : d = (pairs_to_dict (root.children.filterMap jobPair) none).1 := by
        simpa [config_xml_to_dict, xmlDicts] using hd
      rw [hd2] at hp
      exact base _ none p hp

/-- Witness for C9 at the one-token list `["a=b"]` and its entry. -/
theorem claim_C9_invariant_witness :
    (['a'], ['b']) ∈ (pairs_to_dict ["a=b".toList] none).1
    ∧ ((['a'] : Str) ≠ [] ∧ (['b'] : Str) ≠ [] ∧
        ASSIGNMENT ∉ (['a'] : Str) ∧ ASSIGNMENT ∉ (['b'] : Str)) :=
  ⟨by decide,
    claim_C9_invariant.1 ["a=b".toList] none (['a'], ['b']) (by decide)⟩

/-- C10 (implicit): the job path feeds its generated tokens to
`pairs_to_dict` without the sink, so a root child (other than the tasks
container) whose text is non-null but whitespace-only produces the
invalid token `tag=` and is silently omitted: the result equals the
result for the document without that element, and the supplied sink
comes back untouched. -/
theorem claim_C10_silent_skip (rtag : Str) (rtext : Option Str)
    (pre post : List Xml) (etag t : Str) (ech : List Xml) (s : Sink)
    (htag : etag ≠ TASKS_TAG) (ht : pyStrip t = []) :
    config_xml_to_dict
        (some (Xml.node rtag rtext (pre ++ Xml.node etag (some t) ech :: post)))
        s true
      = config_xml_to_dict (some (Xml.node rtag rtext (pre ++ post))) s true
    ∧ (config_xml_to_dict
        (some (Xml.node rtag rtext (pre ++ Xml.node etag (some t) ech :: post)))
        s true).2 = s := by
  have hjp : jobPair (Xml.node etag (some t) ech) = some (etag ++ [ASSIGNMENT]) := by
    unfold jobPair
    simp only [Xml.tag, Xml.text]
    rw [if_pos htag]
    show some (etag ++ ASSIGNMENT :: pyStrip t) = some (etag ++ [ASSIGNMENT])
    rw [ht]
  have hvp : validPair (etag ++ [ASSIGNMENT]) = none := validPair_trailing etag
  constructor
  · show (Sum.inl (pairs_to_dict
        ((pre ++ Xml.node etag (some t) ech :: post).filterMap jobPair) none).1, s)
      = (Sum.inl (pairs_to_dict ((pre ++ post).filterMap jobPair) none).1, s)
    rw [List.filterMap_append, List.filterMap_append, List.filterMap_cons, hjp]
    have hloop : pairsLoop
        (pre.filterMap jobPair
          ++ (etag ++ [ASSIGNMENT]) :: post.filterMap jobPair) [] none
        = pairsLoop (pre.filterMap jobPair ++ post.filterMap jobPair) [] none := by
      rw [pairsLoop_append (pre.filterMap jobPair)
          ((etag ++ [ASSIGNMENT]) :: post.filterMap jobPair) [] none,
        pairsLoop_none (pre.filterMap jobPair) [],
        pairsLoop_invalid_none hvp,
        pairsLoop_append (pre.filterMap jobPair) (post.filterMap jobPair) [] none,
        pairsLoop_none (pre.filterMap jobPair) []]
    have hdict : (pairs_to_dict
        (pre.filterMap jobPair
          ++ (etag ++ [ASSIGNMENT]) :: post.filterMap jobPair) none).1
        = (pairs_to_dict
            (pre.filterMap jobPair ++ post.filterMap jobPair) none).1 :=
      congrArg Prod.fst hloop
    rw [hdict]
  · rfl

/-- Witness for C10 on a concrete root with a whitespace-only `k`
element. -/
theorem claim_C10_silent_skip_witness :
    ("k".toList ≠ TASKS_TAG)
    ∧ pyStrip "  ".toList = []
    ∧ config_xml_to_dict
        (some (Xml.node "job".toList none
          ([Xml.node "lang".toList (some "en".toList) []]
            ++ Xml.node "k".toList (some "  ".toList) [] :: [])))
        initSink true
      = config_xml_to_dict
          (some (Xml.node "job".toList none
            ([Xml.node "lang".toList (some "en".toList) []] ++ [])))
          initSink true :=
  ⟨by decide, by decide,
    (claim_C10_silent_skip "job".toList none
      [Xml.node "lang".toList (some "en".toList) []] []
      "k".toList "  ".toList [] initSink (by decide) (by decide)).1⟩
